import Mathlib

/-!
Shallow embedding of the baseline matching/diffing engine of
`eslint-plugin-baseline` (file `src/core/baseline.js`), together with proofs
checking the natural-language specification against it.

Modelling conventions:
* JavaScript objects used as string-keyed dictionaries (the baseline document,
  the per-rule grouping, directory contents) are modelled as association lists
  `List (String × _)` with unique keys and insertion order, and JavaScript
  `Map`s the same way; `mapGet`, `mapSet`, `mapDelete` mirror property read,
  property write / `Map.set`, and `Map.delete`.
* Parsed JSON is the inductive `JsonVal`; file contents on disk are stored
  already parsed (the claims under study do not involve JSON-text syntax
  errors).
* The fingerprint: the code computes an MD5 digest of the string
  ruleId + ":" + line + ":" + message truncated to 12 hex characters.  We model
  the digest by its pre-image string: equal pre-images give equal digests, and
  the design treats the truncated digest as collision-free (spec section 4.1),
  so distinctness of pre-images models distinctness of fingerprints.
* `Array.prototype.sort(cmp)` is modelled by an insertion sort with the same
  comparator; every claim about sorted output is stated up to ordering, so only
  the permutation property of the sort is used.
-/

/-- One recorded finding, as stored in a baseline document
(`BaselineError` in the package's type declarations): rule identifier,
line, column and message. -/
structure Finding where
  ruleId : String
  line : Nat
  column : Nat
  message : String
deriving DecidableEq, Repr

/-- Parsed JSON values, the input shape of `_validateBaselineData`
(baseline.js lines 102-132). -/
inductive JsonVal where
  | null : JsonVal
  | bool : Bool → JsonVal
  | num : Int → JsonVal
  | str : String → JsonVal
  | arr : List JsonVal → JsonVal
  | obj : List (String × JsonVal) → JsonVal

/-- A baseline document: relative file path mapped to the findings recorded
for that file (JS object, modelled as an association list). -/
abbrev Doc := List (String × List Finding)

/-- The matching index: per file, fingerprint mapped to remaining count
(JS `Map` of `Map`s, built by `_buildIndex`). -/
abbrev Index := List (String × List (String × Nat))

/-- Property read on a JS object / `Map.get`: the entry with the key (JS
object and `Map` keys are unique, so taking the first match is exact). -/
def mapGet {α : Type} (m : List (String × α)) (k : String) : Option α :=
  match m with
  | [] => none
  | (a, b) :: rest => if a = k then some b else mapGet rest k

/-- Property write on a JS object / `Map.set`: overwrite the entry with the
key when present, otherwise append a new entry at the end (JS insertion
order). -/
def mapSet {α : Type} (m : List (String × α)) (k : String) (v : α) :
    List (String × α) :=
  match m with
  | [] => [(k, v)]
  | (a, b) :: rest => if a = k then (k, v) :: rest else (a, b) :: mapSet rest k v

/-- `Map.delete`: remove the entry with the key. -/
def mapDelete {α : Type} (m : List (String × α)) (k : String) :
    List (String × α) :=
  match m with
  | [] => []
  | (a, b) :: rest => if a = k then rest else (a, b) :: mapDelete rest k

/-- Lexicographic comparison of character lists, the order JS string
comparison (`Array.prototype.sort` on keys) induces. -/
def charListLe : List Char → List Char → Bool
  | [], _ => true
  | _ :: _, [] => false
  | a :: as, b :: bs => if a = b then charListLe as bs else decide (a < b)

/-- String comparison used when sorting document keys (models the default
JS string sort order; the claims only use that it sorts by a total
comparison, i.e. produces a permutation). -/
def stringLe (a b : String) : Bool :=
  charListLe a.data b.data

/-- The comparator of `_sortBaseline` (baseline.js lines 353-358): by line,
then by rule identifier. -/
def findingLe (a b : Finding) : Bool :=
  if a.line ≠ b.line then decide (a.line ≤ b.line) else stringLe a.ruleId b.ruleId

/-- Insert into a sorted list, keeping the comparator order. -/
def insertSorted {α : Type} (le : α → α → Bool) (x : α) : List α → List α
  | [] => [x]
  | y :: ys => if le x y then x :: y :: ys else y :: insertSorted le x ys

/-- Comparison sort modelling `Array.prototype.sort(cmp)`; the claims use
only that the result is a permutation of the input. -/
def sortBy {α : Type} (le : α → α → Bool) (l : List α) : List α :=
  l.foldr (insertSorted le) []

/-- Pre-image string of `_generateHash` (baseline.js lines 206-212): the code
MD5-hashes ruleId + ":" + line + ":" + message (with the line number printed
in decimal) and truncates the hex digest to 12 characters; we model the digest
by this pre-image string (see the module comment). -/
def generateHash (ruleId : String) (line : Nat) (message : String) : String :=
  ruleId ++ ":" ++ Nat.repr line ++ ":" ++ message

/-- Fingerprint of a stored finding: `_generateHash(error.ruleId, error.line,
error.message)` — the column is not an input. -/
def findingHash (e : Finding) : String :=
  generateHash e.ruleId e.line e.message

/-- Rule identifier made filesystem-safe for split mode
(baseline.js line 304): every `/` replaced by `-`. -/
def safeRuleId (ruleId : String) : String :=
  ⟨ruleId.data.map (fun c => if c = '/' then '-' else c)⟩

/-- Property read on a parsed JSON value: `undefined` (here `none`) on
anything that is not an object with that field. -/
def getField (j : JsonVal) (k : String) : Option JsonVal :=
  match j with
  | JsonVal.obj fields => mapGet fields k
  | _ => none

/-- JS `typeof v === 'object'`: true for objects, arrays and `null`. -/
def jsTypeofIsObject (j : JsonVal) : Bool :=
  match j with
  | JsonVal.obj _ => true
  | JsonVal.arr _ => true
  | JsonVal.null => true
  | _ => false

/-- The per-entry filter of `_validateBaselineData` (baseline.js lines
116-124): keep an entry iff it is a non-null `object` whose `ruleId` field is
a string and whose `line` field is a number.  Note the code checks only
`typeof error.ruleId !== 'string'`: an empty-string rule identifier passes. -/
def isValidError (j : JsonVal) : Bool :=
  match j with
  | JsonVal.null => false
  | JsonVal.obj _ =>
      (match getField j "ruleId" with
       | some (JsonVal.str _) => true
       | _ => false) &&
      (match getField j "line" with
       | some (JsonVal.num _) => true
       | _ => false)
  | JsonVal.arr _ =>
      (match getField j "ruleId" with
       | some (JsonVal.str _) => true
       | _ => false) &&
      (match getField j "line" with
       | some (JsonVal.num _) => true
       | _ => false)
  | _ => false

/-- `_validateBaselineData` (baseline.js lines 102-132): a non-object (or
null, or array) top level yields an empty document; a per-file value that is
not an array is dropped; each file keeps its entries passing `isValidError`,
and a file whose valid entries are empty is dropped (`validateStep` is the
loop body for one file entry, baseline.js lines 110-129). -/
def validateStep (validated : List (String × List JsonVal))
    (p : String × JsonVal) : List (String × List JsonVal) :=
  match p.2 with
  | JsonVal.arr errors =>
      let validErrors := errors.filter isValidError
      if 0 < validErrors.length then validated ++ [(p.1, validErrors)]
      else validated
  | _ => validated

def validateBaselineData (data : JsonVal) : List (String × List JsonVal) :=
  match data with
  | JsonVal.obj entries => entries.foldl validateStep []
  | _ => []

/-- JSON encoding of one finding, as written by `JSON.stringify` on the
objects the engine stores. -/
def findingToJson (f : Finding) : JsonVal :=
  JsonVal.obj
    [("ruleId", JsonVal.str f.ruleId),
     ("line", JsonVal.num (Int.ofNat f.line)),
     ("column", JsonVal.num (Int.ofNat f.column)),
     ("message", JsonVal.str f.message)]

/-- JSON encoding of a whole document. -/
def docToJson (d : Doc) : JsonVal :=
  JsonVal.obj (d.map (fun p => (p.1, JsonVal.arr (p.2.map findingToJson))))

/-- Typed view of a loaded JSON finding: the JS engine keeps the raw parsed
object and reads `ruleId`, `line`, `column`, `message` off it downstream; on
objects produced by `findingToJson` this view is exact (fields absent or of
an unexpected shape read as defaults). -/
def jsonToFinding (j : JsonVal) : Finding :=
  { ruleId :=
      match getField j "ruleId" with
      | some (JsonVal.str s) => s
      | _ => ""
    line :=
      match getField j "line" with
      | some (JsonVal.num n) => n.toNat
      | _ => 0
    column :=
      match getField j "column" with
      | some (JsonVal.num n) => n.toNat
      | _ => 0
    message :=
      match getField j "message" with
      | some (JsonVal.str s) => s
      | _ => "" }

/-- Typed view of a validated document. -/
def decodeValidated (v : List (String × List JsonVal)) : Doc :=
  v.map (fun p => (p.1, p.2.map jsonToFinding))

/-- `_sortBaseline` (baseline.js lines 348-362): keys sorted, each file's
findings sorted by the `findingLe` comparator. -/
def sortBaseline (data : Doc) : Doc :=
  (sortBy stringLe (data.map (fun p => p.1))).map
    (fun k => (k, sortBy findingLe ((mapGet data k).getD [])))

/-- Inner loop of `_buildIndex` (baseline.js lines 186-192): count the
fingerprints of a file's findings into a multiset. -/
def buildFileHashes (errors : List Finding) : List (String × Nat) :=
  errors.foldl
    (fun hashes e =>
      let h := findingHash e
      mapSet hashes h ((mapGet hashes h).getD 0 + 1))
    []

/-- `_buildIndex` (baseline.js lines 183-196): per file, the multiset of
fingerprints of its findings. -/
def buildIndex (data : Doc) : Index :=
  data.map (fun p => (p.1, buildFileHashes p.2))

/-- `isInBaseline` (baseline.js lines 222-247) after the implicit load and
the `path.relative` step: look up the file's fingerprint multiset under the
relative path; a remaining count of at least 1 is consumed (the entry is
deleted outright when the count is exactly 1) and answers true; anything else
answers false and leaves the index unchanged.  Returns the answer together
with the updated index (the JS mutates `this.index` in place). -/
def isInBaselineIdx (index : Index) (relativePath ruleId : String) (line : Nat)
    (message : String) : Bool × Index :=
  match mapGet index relativePath with
  | none => (false, index)
  | some fileHashes =>
      let h := generateHash ruleId line message
      match mapGet fileHashes h with
      | none => (false, index)
      | some count =>
          if 0 < count then
            if count = 1 then
              (true, mapSet index relativePath (mapDelete fileHashes h))
            else
              (true, mapSet index relativePath (mapSet fileHashes h (count - 1)))
          else (false, index)

/-- Remaining count of a fingerprint in the index entry of a file (0 when the
file or the fingerprint is absent). -/
def remainingCount (index : Index) (relativePath h : String) : Nat :=
  match mapGet index relativePath with
  | none => 0
  | some fileHashes => (mapGet fileHashes h).getD 0

/-- Whether the index still holds a map entry for a fingerprint under a file
(regardless of its count). -/
def hashPresent (index : Index) (relativePath h : String) : Bool :=
  match mapGet index relativePath with
  | none => false
  | some fileHashes => (mapGet fileHashes h).isSome

/-- The part of the engine state the matching operations touch: the loaded
document and the index. -/
structure EngineData where
  data : Doc
  index : Index
deriving Repr

/-- One `isInBaseline` call on a loaded engine: only the index changes
(the JS mutates the inner `Map`s of `this.index`; `this.data` is not
touched). -/
def isInBaselineSt (st : EngineData) (q : String × String × Nat × String) :
    Bool × EngineData :=
  let r := isInBaselineIdx st.index q.1 q.2.1 q.2.2.1 q.2.2.2
  (r.1, { data := st.data, index := r.2 })

/-- A sequence of `isInBaseline` calls, threading the engine state. -/
def applyLookups (st : EngineData) (qs : List (String × String × Nat × String)) :
    EngineData :=
  qs.foldl (fun s q => (isInBaselineSt s q).2) st

/-- `getStats` (baseline.js lines 368-389) as a function of the loaded
document: total number of findings, number of files, and per-rule counts,
computed by a full scan of the document. -/
def getStats (data : Doc) : Nat × Nat × List (String × Nat) :=
  let totalErrors := data.foldl (fun n p => n + p.2.length) 0
  let ruleStats :=
    data.foldl
      (fun rs p =>
        p.2.foldl
          (fun rs e => mapSet rs e.ruleId ((mapGet rs e.ruleId).getD 0 + 1))
          rs)
      []
  (totalErrors, data.length, ruleStats)

/-- On-disk state the engine reads and writes: the single-mode baseline file
and the split-mode directory (file name mapped to parsed content).  `none`
models a missing file / directory. -/
structure Disk where
  singleFile : Option JsonVal
  splitDir : Option (List (String × JsonVal))

/-- A filesystem with neither the baseline file nor the split directory. -/
def emptyDisk : Disk :=
  { singleFile := none, splitDir := none }

/-- Engine lifecycle state (constructor, baseline.js lines 24-31): document
and index start as JS `null` (here `none`), `loaded` starts false. -/
structure Engine where
  splitByRule : Bool
  data : Option Doc
  index : Option Index
  loaded : Bool

/-- A freshly constructed engine. -/
def newEngine (splitByRule : Bool) : Engine :=
  { splitByRule := splitByRule, data := none, index := none, loaded := false }

/-- String of a file name test `f.endsWith('.json')`; modelled on the
underlying character lists. -/
def strEndsWith (s suf : String) : Bool :=
  decide (suf.data.IsSuffix s.data)

/-- `_loadSplitBaseline` (baseline.js lines 139-177): read every directory
entry ending in `.json` except `_loader.json` (in directory order), validate
each document, and merge the per-file entry lists by concatenation
(`mergeEntry` is the inner loop at baseline.js lines 165-170: create the
file's array when absent, then push the document's findings). -/
def mergeEntry (merged : Doc) (q : String × List Finding) : Doc :=
  match mapGet merged q.1 with
  | none => merged ++ [(q.1, q.2)]
  | some existing => mapSet merged q.1 (existing ++ q.2)

def loadSplitBaseline (dirContents : List (String × JsonVal)) : Doc :=
  let files := dirContents.filter
    (fun p => strEndsWith p.1 ".json" && !(decide (p.1 = "_loader.json")))
  files.foldl
    (fun merged p =>
      (decodeValidated (validateBaselineData p.2)).foldl mergeEntry merged)
    []

/-- Document decode for the active mode: `_loadSingleBaseline` (missing file
is an empty document, otherwise parse and validate) or `_loadSplitBaseline`
(missing directory is an empty document). -/
def loadDocFromDisk (disk : Disk) (splitByRule : Bool) : Doc :=
  if splitByRule then
    match disk.splitDir with
    | none => []
    | some dir => loadSplitBaseline dir
  else
    match disk.singleFile with
    | none => []
    | some j => decodeValidated (validateBaselineData j)

/-- `load` (baseline.js lines 57-72): when already loaded, return the cached
document unchanged; otherwise decode the active storage mode, build the
index, and mark the engine loaded.  Returns the document together with the
updated engine. -/
def load (disk : Disk) (e : Engine) : Option Doc × Engine :=
  if e.loaded then (e.data, e)
  else
    let d := loadDocFromDisk disk e.splitByRule
    (some d,
     { e with data := some d, index := some (buildIndex d), loaded := true })

/-- `reset` (baseline.js lines 424-428): document and index back to `null`,
`loaded` back to false. -/
def reset (e : Engine) : Engine :=
  { e with data := none, index := none, loaded := false }

/-- `_saveSingleBaseline` (baseline.js lines 279-284): write the sorted
document as JSON to the baseline file. -/
def saveSingleBaseline (disk : Disk) (data : Doc) : Disk :=
  { disk with singleFile := some (docToJson (sortBaseline data)) }

/-- One step of the grouping loop of `_saveSplitBaseline` (baseline.js lines
300-313): push one finding onto `byRule[safeRuleId][filePath]`, creating the
inner objects when absent. -/
def addToByRule (byRule : List (String × Doc)) (filePath : String)
    (e : Finding) : List (String × Doc) :=
  let rid := safeRuleId e.ruleId
  let ruleDoc := (mapGet byRule rid).getD []
  let fileErrs := (mapGet ruleDoc filePath).getD []
  mapSet byRule rid (mapSet ruleDoc filePath (fileErrs ++ [e]))

/-- The grouping loop of `_saveSplitBaseline`: partition the document's
findings by filesystem-safe rule identifier. -/
def buildByRule (data : Doc) : List (String × Doc) :=
  data.foldl
    (fun br p => p.2.foldl (fun br e => addToByRule br p.1 e) br)
    []

/-- The `_loader.json` manifest written by `_saveSplitBaseline` (baseline.js
lines 334-339): a description and the sorted member file names.  Its content
is ignored on load. -/
def loaderJson (byRule : List (String × Doc)) : JsonVal :=
  JsonVal.obj
    [("description", JsonVal.str "ESLint baseline split by rule identifier"),
     ("files",
      JsonVal.arr
        ((sortBy stringLe (byRule.map (fun p => p.1 ++ ".json"))).map
          JsonVal.str))]

/-- `_saveSplitBaseline` (baseline.js lines 291-340): clear prior `.json`
files from the directory, write one sorted document per rule under
`safeRuleId ++ ".json"`, then write the `_loader.json` manifest (each write
modelled by `mapSet`, so a later write to an existing name overwrites it). -/
def saveSplitBaseline (dirContents : List (String × JsonVal)) (data : Doc) :
    List (String × JsonVal) :=
  let cleared := dirContents.filter (fun p => !(strEndsWith p.1 ".json"))
  let byRule := buildByRule data
  let written :=
    byRule.foldl
      (fun dir p =>
        mapSet dir (p.1 ++ ".json") (docToJson (sortBaseline p.2)))
      cleared
  mapSet written "_loader.json" (loaderJson byRule)

/-- `save` (baseline.js lines 255-272): an empty document without the
`allowEmpty` override answers false and writes nothing; otherwise the
document is persisted in the active mode and the answer is true.  Failure is
reported by the boolean, never by an exception (the function is total). -/
def save (disk : Disk) (e : Engine) (data : Doc) (allowEmpty : Bool) :
    Bool × Disk :=
  if data.length = 0 && !allowEmpty then (false, disk)
  else if e.splitByRule then
    (true,
     { disk with
        splitDir := some (saveSplitBaseline ((disk.splitDir).getD []) data) })
  else (true, saveSingleBaseline disk data)

/-- One unmatched entry as assembled by `getUnmatched`: the file, the first
stored finding whose fingerprint matches, and the remaining count. -/
structure UnmatchedEntry where
  file : String
  finding : Finding
  unmatchedCount : Nat
deriving DecidableEq, Repr

/-- Body of `getUnmatched` (baseline.js lines 395-419) given non-null
document and index: for every fingerprint with a positive remaining count,
the first finding of that file with that fingerprint, annotated with the
count. -/
def getUnmatchedCore (data : Doc) (index : Index) : List UnmatchedEntry :=
  index.foldl
    (fun acc p =>
      p.2.foldl
        (fun acc hc =>
          if 0 < hc.2 then
            let fileErrors := (mapGet data p.1).getD []
            match fileErrors.find? (fun err => decide (findingHash err = hc.1)) with
            | some err =>
                acc ++ [{ file := p.1, finding := err, unmatchedCount := hc.2 }]
            | none => acc
          else acc)
        acc)
    []

/-- `getUnmatched` (baseline.js lines 395-419).  Unlike every other
operation, the JS body has no `if (!this.loaded) this.load()` guard and
immediately reads `this.index.entries()`; on an unloaded engine `this.index`
is `null` and the call throws a TypeError, modelled here as `none`. -/
def getUnmatched (e : Engine) : Option (List UnmatchedEntry) :=
  match e.index with
  | none => none
  | some idx => some (getUnmatchedCore (e.data.getD []) idx)

/-- Engine-level `isInBaseline` (baseline.js lines 222-247) including the
implicit load; takes the already-relativized path (the JS first computes
`path.relative(this.cwd, filePath)`, an external path computation the claims
quantify over). -/
def isInBaselineEng (disk : Disk) (e : Engine) (relativePath ruleId : String)
    (line : Nat) (message : String) : Bool × Engine :=
  let e := if e.loaded then e else (load disk e).2
  let r := isInBaselineIdx (e.index.getD []) relativePath ruleId line message
  (r.1, { e with index := some r.2 })

/-- Engine-level `getStats` (baseline.js lines 368-389) including the
implicit load. -/
def getStatsEng (disk : Disk) (e : Engine) :
    (Nat × Nat × List (String × Nat)) × Engine :=
  let e := if e.loaded then e else (load disk e).2
  (getStats (e.data.getD []), e)

/-- Result record of `prune` (baseline.js lines 481-485). -/
structure PruneResult where
  data : Doc
  removedCount : Nat
  keptCount : Nat
deriving Repr

/-- `prune` (baseline.js lines 435-486) as a function of the loaded document:
build the set of current fingerprints per file, then keep exactly the
baseline entries whose fingerprint occurs among the current findings of the
same file; a baseline file absent from the current findings has all entries
removed and is dropped; a file whose kept list is empty is dropped.  (The JS
`Set` of fingerprints is modelled as the list of fingerprints; only
membership is used.)  `pruneStep` is the body of the filtering loop at
baseline.js lines 456-479 for one baseline file. -/
def pruneStep (currentIndex : List (String × List String)) (acc : PruneResult)
    (p : String × List Finding) : PruneResult :=
  match mapGet currentIndex p.1 with
  | none =>
      { acc with removedCount := acc.removedCount + p.2.length }
  | some currentHashes =>
      let keptErrors :=
        p.2.filter (fun e => currentHashes.contains (findingHash e))
      let removedErrors :=
        p.2.filter (fun e => !(currentHashes.contains (findingHash e)))
      { data :=
          if 0 < keptErrors.length then acc.data ++ [(p.1, keptErrors)]
          else acc.data
        removedCount := acc.removedCount + removedErrors.length
        keptCount := acc.keptCount + keptErrors.length }

def prune (data : Doc) (currentErrors : Doc) : PruneResult :=
  let currentIndex : List (String × List String) :=
    currentErrors.map (fun p => (p.1, p.2.map findingHash))
  data.foldl (pruneStep currentIndex) { data := [], removedCount := 0, keptCount := 0 }

/-- Multiplicity of a finding in a document's entry for a file (0 when the
file is absent). -/
def docCount (d : Doc) (f : String) (x : Finding) : Nat :=
  ((mapGet d f).getD []).count x

/-- Total number of findings of a document. -/
def totalFindings (d : Doc) : Nat :=
  (d.map (fun p => p.2.length)).sum

/-- Specification-side predicate: the current-findings document has, for this
file, some finding with this fingerprint. -/
def currentHasHash (currentErrors : Doc) (f h : String) : Bool :=
  match mapGet currentErrors f with
  | none => false
  | some es => es.any (fun e => decide (findingHash e = h))

/-- Specification-side predicate for the load validator (spec section 4.2,
as amended): an entry is kept iff it is a non-null object-typed value whose
`ruleId` field is a string and whose `line` field is a number. -/
def keptEntrySpec (j : JsonVal) : Prop :=
  jsTypeofIsObject j = true ∧ j ≠ JsonVal.null ∧
  (∃ s, getField j "ruleId" = some (JsonVal.str s)) ∧
  (∃ n, getField j "line" = some (JsonVal.num n))

/-- Numeric value of a decimal digit character (proof tool for the
injectivity of the decimal rendering used inside the fingerprint
pre-image). -/
def dvalChar (c : Char) : Nat :=
  c.toNat - 48

/-- Decimal decoding of a character list (proof tool, left inverse of
`Nat.repr`). -/
def decodeDigits (l : List Char) : Nat :=
  l.foldl (fun a c => a * 10 + dvalChar c) 0

/-- Sum, over all entries of a document, of the multiplicity of a finding
under a file key (agrees with `docCount` when keys are unique; proof tool). -/
def entriesCountDoc (d : Doc) (f : String) (x : Finding) : Nat :=
  (d.map (fun q => if q.1 = f then q.2.count x else 0)).sum

/-- Sum of `docCount` over the per-rule documents of the split-mode grouping
(proof tool). -/
def byRuleTotal (br : List (String × Doc)) (f : String) (x : Finding) : Nat :=
  (br.map (fun p => docCount p.2 f x)).sum

/-- Invariant of the split-mode grouping loop: unique rule keys, unique file
keys inside every per-rule document, and no rule keyed `_loader` (proof
tool). -/
def ByRuleInv (br : List (String × Doc)) : Prop :=
  (br.map Prod.fst).Nodup
  ∧ (∀ q ∈ br, (q.2.map Prod.fst).Nodup)
  ∧ "_loader" ∉ br.map Prod.fst

/-! Helper lemmas about the association-list model of JS objects and Maps. -/

theorem mapGet_nil {α : Type} (k : String) :
    mapGet ([] : List (String × α)) k = none := rfl

theorem mapGet_cons {α : Type} (a k : String) (b : α) (m : List (String × α)) :
    mapGet ((a, b) :: m) k = if a = k then some b else mapGet m k := rfl

theorem mapSet_cons_eq {α : Type} (a : String) (b v : α) (m : List (String × α)) :
    mapSet ((a, b) :: m) a v = (a, v) :: m := by
  simp [mapSet]

theorem mapSet_cons_ne {α : Type} {a k : String} (b : α) (v : α)
    (m : List (String × α)) (h : a ≠ k) :
    mapSet ((a, b) :: m) k v = (a, b) :: mapSet m k v := by
  simp [mapSet, h]

theorem mapDelete_cons_eq {α : Type} (a : String) (b : α) (m : List (String × α)) :
    mapDelete ((a, b) :: m) a = m := by
  simp [mapDelete]

theorem mapDelete_cons_ne {α : Type} {a k : String} (b : α)
    (m : List (String × α)) (h : a ≠ k) :
    mapDelete ((a, b) :: m) k = (a, b) :: mapDelete m k := by
  simp [mapDelete, h]

theorem mapGet_eq_none_iff {α : Type} (m : List (String × α)) (k : String) :
    mapGet m k = none ↔ k ∉ m.map Prod.fst := by
  induction m with
  | nil => simp [mapGet]
  | cons p m ih =>
    obtain ⟨a, b⟩ := p
    rw [mapGet_cons]
    by_cases h : a = k
    · subst h
      simp
    · rw [if_neg h, ih]
      simp [Ne.symm h]

theorem mapGet_mem {α : Type} {m : List (String × α)} {k : String} {v : α}
    (h : mapGet m k = some v) : (k, v) ∈ m := by
  induction m with
  | nil => simp [mapGet] at h
  | cons p m ih =>
    obtain ⟨a, b⟩ := p
    rw [mapGet_cons] at h
    by_cases ha : a = k
    · rw [if_pos ha] at h
      subst ha
      cases h
      exact List.mem_cons_self _ _
    · rw [if_neg ha] at h
      exact List.mem_cons_of_mem _ (ih h)

theorem mapGet_mapSet {α : Type} (m : List (String × α)) (k k' : String) (v : α) :
    mapGet (mapSet m k v) k' = if k' = k then some v else mapGet m k' := by
  induction m with
  | nil =>
    rw [show mapSet ([] : List (String × α)) k v = [(k, v)] from rfl, mapGet_cons,
      mapGet_nil]
    by_cases h : k' = k
    · rw [if_pos h, if_pos h.symm]
    · rw [if_neg h, if_neg (fun hh => h hh.symm)]
  | cons p m ih =>
    obtain ⟨a, b⟩ := p
    by_cases ha : a = k
    · subst ha
      rw [mapSet_cons_eq, mapGet_cons, mapGet_cons]
      by_cases h : k' = a
      · rw [if_pos h.symm, if_pos h]
      · rw [if_neg h, if_neg (fun hh => h hh.symm), if_neg (fun hh => h hh.symm)]
    · rw [mapSet_cons_ne b v m ha, mapGet_cons, mapGet_cons]
      by_cases hak : a = k'
      · rw [if_pos hak, if_pos hak, if_neg (fun hh => ha (hak.trans hh))]
      · rw [if_neg hak, if_neg hak, ih]

theorem mapGet_mapDelete {α : Type} (m : List (String × α)) (k k' : String)
    (hnd : (m.map Prod.fst).Nodup) :
    mapGet (mapDelete m k) k' = if k' = k then none else mapGet m k' := by
  induction m with
  | nil => split <;> rfl
  | cons p m ih =>
    obtain ⟨a, b⟩ := p
    simp only [List.map_cons, List.nodup_cons] at hnd
    by_cases ha : a = k
    · subst ha
      rw [mapDelete_cons_eq, mapGet_cons]
      by_cases h : k' = a
      · rw [if_pos h, h]
        exact (mapGet_eq_none_iff m a).mpr hnd.1
      · rw [if_neg h, if_neg (fun hh => h hh.symm)]
    · rw [mapDelete_cons_ne b m ha, mapGet_cons, mapGet_cons, ih hnd.2]
      by_cases h : k' = k
      · rw [if_pos h, if_pos h, if_neg (fun hh => ha (hh.trans h))]
      · rw [if_neg h, if_neg h]

theorem keys_mapSet {α : Type} (m : List (String × α)) (k : String) (v : α) :
    (mapSet m k v).map Prod.fst =
      if k ∈ m.map Prod.fst then m.map Prod.fst else m.map Prod.fst ++ [k] := by
  induction m with
  | nil => simp [mapSet]
  | cons p m ih =>
    obtain ⟨a, b⟩ := p
    by_cases ha : a = k
    · subst ha
      simp [mapSet_cons_eq]
    · rw [mapSet_cons_ne b v m ha, List.map_cons, List.map_cons, ih]
      by_cases hk : k ∈ m.map Prod.fst
      · rw [if_pos hk, if_pos (by simp [hk])]
      · rw [if_neg hk, if_neg (by simp [hk, Ne.symm ha])]
        simp

theorem nodup_keys_mapSet {α : Type} (m : List (String × α)) (k : String) (v : α)
    (hnd : (m.map Prod.fst).Nodup) : ((mapSet m k v).map Prod.fst).Nodup := by
  rw [keys_mapSet]
  by_cases hk : k ∈ m.map Prod.fst
  · rwa [if_pos hk]
  · rw [if_neg hk]
    refine List.Nodup.append hnd (List.nodup_singleton k) ?_
    intro a ha hmem
    rw [List.mem_singleton] at hmem
    exact hk (hmem ▸ ha)

theorem mem_mapSet {α : Type} {m : List (String × α)} {k : String} {v : α}
    {p : String × α} (h : p ∈ mapSet m k v) : p ∈ m ∨ p = (k, v) := by
  induction m with
  | nil =>
    rw [show mapSet ([] : List (String × α)) k v = [(k, v)] from rfl] at h
    rw [List.mem_singleton] at h
    exact Or.inr h
  | cons q m ih =>
    obtain ⟨a, b⟩ := q
    by_cases ha : a = k
    · subst ha
      rw [mapSet_cons_eq, List.mem_cons] at h
      rcases h with h | h
      · exact Or.inr h
      · exact Or.inl (List.mem_cons_of_mem _ h)
    · rw [mapSet_cons_ne b v m ha, List.mem_cons] at h
      rcases h with h | h
      · exact Or.inl (by simp [h])
      · rcases ih h with h | h
        · exact Or.inl (List.mem_cons_of_mem _ h)
        · exact Or.inr h

theorem mapGet_mapValues {α β : Type} (l : List (String × α)) (g : α → β)
    (k : String) :
    mapGet (l.map (fun p => (p.1, g p.2))) k = (mapGet l k).map g := by
  induction l with
  | nil => rfl
  | cons p l ih =>
    obtain ⟨a, b⟩ := p
    rw [List.map_cons, mapGet_cons, mapGet_cons]
    by_cases ha : a = k
    · rw [if_pos ha, if_pos ha]
      rfl
    · rw [if_neg ha, if_neg ha, ih]

theorem mapGet_keysMap {α : Type} (keys : List String) (v : String → α)
    (f : String) :
    mapGet (keys.map (fun k => (k, v k))) f =
      if f ∈ keys then some (v f) else none := by
  induction keys with
  | nil => simp [mapGet]
  | cons a keys ih =>
    rw [List.map_cons, mapGet_cons, ih]
    by_cases ha : a = f
    · subst ha
      rw [if_pos rfl, if_pos (List.mem_cons_self a keys)]
    · rw [if_neg ha]
      by_cases hf : f ∈ keys
      · rw [if_pos hf, if_pos (List.mem_cons_of_mem a hf)]
      · rw [if_neg hf, if_neg (by simp [Ne.symm ha, hf])]

theorem mapGet_append_left {α : Type} {l₁ : List (String × α)} {k : String}
    {v : α} (l₂ : List (String × α)) (h : mapGet l₁ k = some v) :
    mapGet (l₁ ++ l₂) k = some v := by
  induction l₁ with
  | nil => simp [mapGet] at h
  | cons p l ih =>
    obtain ⟨a, b⟩ := p
    rw [mapGet_cons] at h
    rw [List.cons_append, mapGet_cons]
    by_cases ha : a = k
    · rwa [if_pos ha] at h ⊢
    · rw [if_neg ha] at h ⊢
      exact ih h

theorem mapGet_append_right {α : Type} {l₁ : List (String × α)} {k : String}
    (l₂ : List (String × α)) (h : mapGet l₁ k = none) :
    mapGet (l₁ ++ l₂) k = mapGet l₂ k := by
  induction l₁ with
  | nil => rfl
  | cons p l ih =>
    obtain ⟨a, b⟩ := p
    rw [mapGet_cons] at h
    rw [List.cons_append, mapGet_cons]
    by_cases ha : a = k
    · rw [if_pos ha] at h
      cases h
    · rw [if_neg ha] at h
      rw [if_neg ha]
      exact ih h

/-! Permutation property of the comparison sort. -/

theorem insertSorted_perm {α : Type} (le : α → α → Bool) (x : α) (l : List α) :
    (insertSorted le x l).Perm (x :: l) := by
  induction l with
  | nil => exact List.Perm.refl _
  | cons y ys ih =>
    cases hxy : le x y
    · simp only [insertSorted, hxy, Bool.false_eq_true, if_false]
      exact (List.Perm.cons y ih).trans (List.Perm.swap x y ys)
    · simp only [insertSorted, hxy, if_true]
      exact List.Perm.refl _

theorem sortBy_perm {α : Type} (le : α → α → Bool) (l : List α) :
    (sortBy le l).Perm l := by
  induction l with
  | nil => exact List.Perm.refl _
  | cons x xs ih =>
    exact (insertSorted_perm le x (sortBy le xs)).trans (List.Perm.cons x ih)

/-! Injectivity of the decimal rendering used inside the fingerprint
pre-image (needed to separate the three fingerprint components). -/

theorem toDigitsCore_shift (f : Nat) :
    ∀ (n : Nat) (ds : List Char),
      Nat.toDigitsCore 10 f n ds = Nat.toDigitsCore 10 f n [] ++ ds := by
  induction f with
  | zero => intro n ds; rfl
  | succ f ih =>
    intro n ds
    by_cases h : n / 10 = 0
    · simp [Nat.toDigitsCore, h]
    · simp only [Nat.toDigitsCore, h, if_false]
      rw [ih (n / 10) (Nat.digitChar (n % 10) :: ds),
        ih (n / 10) [Nat.digitChar (n % 10)], List.append_assoc]
      rfl

theorem dvalChar_digitChar {d : Nat} (h : d < 10) :
    dvalChar (Nat.digitChar d) = d := by
  interval_cases d <;> rfl

theorem decodeDigits_append (l : List Char) (c : Char) :
    decodeDigits (l ++ [c]) = decodeDigits l * 10 + dvalChar c := by
  simp [decodeDigits, List.foldl_append]

theorem decode_toDigitsCore :
    ∀ (f n : Nat), n < 10 ^ f →
      decodeDigits (Nat.toDigitsCore 10 f n []) = n := by
  intro f
  induction f with
  | zero =>
    intro n h
    have hn : n = 0 := Nat.lt_one_iff.mp (by simpa using h)
    subst hn
    rfl
  | succ f ih =>
    intro n h
    by_cases h0 : n / 10 = 0
    · have hu : Nat.toDigitsCore 10 (f + 1) n [] = [Nat.digitChar (n % 10)] := by
        simp [Nat.toDigitsCore, h0]
      have hn : n < 10 := by omega
      rw [hu, show decodeDigits [Nat.digitChar (n % 10)]
            = dvalChar (Nat.digitChar (n % 10)) by simp [decodeDigits],
        dvalChar_digitChar (Nat.mod_lt n (by norm_num))]
      omega
    · have hstep : Nat.toDigitsCore 10 (f + 1) n []
          = Nat.toDigitsCore 10 f (n / 10) [] ++ [Nat.digitChar (n % 10)] := by
        simp only [Nat.toDigitsCore, h0, if_false]
        exact toDigitsCore_shift f (n / 10) [Nat.digitChar (n % 10)]
      have hb : n / 10 < 10 ^ f := by
        rw [pow_succ] at h
        omega
      rw [hstep, decodeDigits_append, ih (n / 10) hb,
        dvalChar_digitChar (Nat.mod_lt n (by norm_num))]
      omega

theorem natRepr_inj {a b : Nat} (h : Nat.repr a = Nat.repr b) : a = b := by
  have hd : Nat.toDigitsCore 10 (a + 1) a [] = Nat.toDigitsCore 10 (b + 1) b [] :=
    congrArg String.data h
  have hpow : ∀ n : Nat, n < 10 ^ (n + 1) := by
    intro n
    calc n < 10 ^ n := Nat.lt_pow_self (by norm_num) n
    _ ≤ 10 ^ (n + 1) := Nat.pow_le_pow_right (by norm_num) (Nat.le_succ n)
  calc a = decodeDigits (Nat.toDigitsCore 10 (a + 1) a []) :=
        (decode_toDigitsCore (a + 1) a (hpow a)).symm
    _ = decodeDigits (Nat.toDigitsCore 10 (b + 1) b []) := by rw [hd]
    _ = b := decode_toDigitsCore (b + 1) b (hpow b)

/-! Separation of the three components of the fingerprint pre-image. -/

theorem generateHash_data (r : String) (l : Nat) (m : String) :
    (generateHash r l m).data
      = r.data ++ ':' :: ((Nat.repr l).data ++ ':' :: m.data) := by
  have hc : (":" : String).data = [':'] := rfl
  simp [generateHash, String.data_append, hc]

theorem generateHash_inj_ruleId {r r' : String} {l : Nat} {m : String}
    (h : generateHash r l m = generateHash r' l m) : r = r' := by
  have hd := congrArg String.data h
  rw [generateHash_data, generateHash_data] at hd
  exact String.ext (List.append_cancel_right hd)

theorem generateHash_inj_message {r : String} {l : Nat} {m m' : String}
    (h : generateHash r l m = generateHash r l m') : m = m' := by
  have hd := congrArg String.data h
  rw [generateHash_data, generateHash_data] at hd
  have h1 := List.append_cancel_left hd
  rw [List.cons_eq_cons] at h1
  have h2 := List.append_cancel_left h1.2
  rw [List.cons_eq_cons] at h2
  exact String.ext h2.2

theorem generateHash_inj_line {r : String} {l l' : Nat} {m : String}
    (h : generateHash r l m = generateHash r l' m) : l = l' := by
  have hd := congrArg String.data h
  rw [generateHash_data, generateHash_data] at hd
  have h1 := List.append_cancel_left hd
  rw [List.cons_eq_cons] at h1
  have h2 := List.append_cancel_right h1.2
  exact natRepr_inj (String.ext h2)

theorem applyLookups_data (st : EngineData)
    (qs : List (String × String × Nat × String)) :
    (applyLookups st qs).data = st.data := by
  induction qs generalizing st with
  | nil => rfl
  | cons q qs ih => exact ih ((isInBaselineSt st q).2)

/-- C7: the fingerprint is deterministic; changing the rule identifier, the
line, or the message alone changes it (in the pre-image model of the
truncated MD5 digest, see `generateHash`); the column is not an input, so
findings differing only in column share a fingerprint. -/
theorem fingerprint_deterministic_and_separating :
    (∀ (r : String) (l : Nat) (m : String), generateHash r l m = generateHash r l m)
    ∧ (∀ (r r' : String) (l : Nat) (m : String), r ≠ r' →
        generateHash r l m ≠ generateHash r' l m)
    ∧ (∀ (r : String) (l l' : Nat) (m : String), l ≠ l' →
        generateHash r l m ≠ generateHash r l' m)
    ∧ (∀ (r : String) (l : Nat) (m m' : String), m ≠ m' →
        generateHash r l m ≠ generateHash r l m')
    ∧ (∀ (r : String) (l c c' : Nat) (m : String),
        findingHash ⟨r, l, c, m⟩ = findingHash ⟨r, l, c', m⟩) := by
  refine ⟨fun _ _ _ => rfl, ?_, ?_, ?_, fun _ _ _ _ _ => rfl⟩
  · intro r r' l m hne h
    exact hne (generateHash_inj_ruleId h)
  · intro r l l' m hne h
    exact hne (generateHash_inj_line h)
  · intro r l m m' hne h
    exact hne (generateHash_inj_message h)

theorem fingerprint_deterministic_and_separating_witness :
    ("a" : String) ≠ "b"
    ∧ generateHash "a" 5 "m" ≠ generateHash "b" 5 "m"
    ∧ (5 : Nat) ≠ 6
    ∧ generateHash "a" 5 "m" ≠ generateHash "a" 6 "m"
    ∧ ("m" : String) ≠ "n"
    ∧ generateHash "a" 5 "m" ≠ generateHash "a" 5 "n" :=
  ⟨by decide,
   fingerprint_deterministic_and_separating.2.1 "a" "b" 5 "m" (by decide),
   by decide,
   fingerprint_deterministic_and_separating.2.2.1 "a" 5 6 "m" (by decide),
   by decide,
   fingerprint_deterministic_and_separating.2.2.2.1 "a" 5 "m" "n" (by decide)⟩

/-- C10: two distinct logical findings whose colon-joined pre-images
coincide, hence equal fingerprints, and one consumes the other's baseline
entry from the matching index. -/
theorem fingerprint_collision_conflates_findings :
    generateHash "a" 5 "1:m" = generateHash "a:5" 1 "m"
    ∧ (("a", 5, "1:m") : String × Nat × String) ≠ ("a:5", 1, "m")
    ∧ (isInBaselineIdx (buildIndex [("f", [⟨"a:5", 1, 1, "m"⟩])])
        "f" "a" 5 "1:m").1 = true :=
  ⟨by decide, by decide, by decide⟩

/-- C8: `getStats` is computed from the document, and matching activity
(`isInBaseline` calls, which consume index entries) never changes the
document, so any sequence of lookups leaves `getStats` at its as-loaded
value. -/
theorem getStats_unaffected_by_matching (st : EngineData)
    (qs : List (String × String × Nat × String)) :
    getStats (applyLookups st qs).data = getStats st.data := by
  rw [applyLookups_data]

/-- C5: the matching and stats operations on a freshly constructed engine:
`isInBaseline` and `getStats` auto-load and answer without error, but
`getUnmatched` reads the `null` index and throws (modelled as `none`),
contradicting the claim that no operation fails before load. -/
theorem getUnmatched_throws_on_unloaded_engine :
    getUnmatched (newEngine false) = none
    ∧ getUnmatched (newEngine true) = none
    ∧ (∀ (p r m : String) (l : Nat),
        (isInBaselineEng emptyDisk (newEngine false) p r l m).1 = false)
    ∧ (getStatsEng emptyDisk (newEngine false)).1 = (0, 0, []) :=
  ⟨rfl, rfl, fun _ _ _ _ => rfl, rfl⟩

/-- C1: a consuming lookup on a loaded index: a fingerprint with remaining
count at least 1 answers true and is decremented (deleted outright when the
count was 1); a missing file, missing fingerprint, or zero count answers
false and leaves the index unchanged; and the concrete
duplicated-entry scenario answers true, true, false. -/
theorem isInBaseline_consumes_multiplicity (idx : Index) (p r : String)
    (l : Nat) (m : String)
    (hnd : ∀ fh, mapGet idx p = some fh → (fh.map Prod.fst).Nodup) :
    (1 ≤ remainingCount idx p (generateHash r l m) →
      (isInBaselineIdx idx p r l m).1 = true
      ∧ remainingCount (isInBaselineIdx idx p r l m).2 p (generateHash r l m)
          = remainingCount idx p (generateHash r l m) - 1
      ∧ (remainingCount idx p (generateHash r l m) = 1 →
          hashPresent (isInBaselineIdx idx p r l m).2 p (generateHash r l m)
            = false))
    ∧ (remainingCount idx p (generateHash r l m) = 0 →
        isInBaselineIdx idx p r l m = (false, idx))
    ∧ ((isInBaselineIdx (buildIndex [("f", [⟨"r", 5, 1, "m"⟩, ⟨"r", 5, 2, "m"⟩])])
          "f" "r" 5 "m").1 = true
       ∧ (isInBaselineIdx
            (isInBaselineIdx
              (buildIndex [("f", [⟨"r", 5, 1, "m"⟩, ⟨"r", 5, 2, "m"⟩])])
              "f" "r" 5 "m").2
            "f" "r" 5 "m").1 = true
       ∧ (isInBaselineIdx
            (isInBaselineIdx
              (isInBaselineIdx
                (buildIndex [("f", [⟨"r", 5, 1, "m"⟩, ⟨"r", 5, 2, "m"⟩])])
                "f" "r" 5 "m").2
              "f" "r" 5 "m").2
            "f" "r" 5 "m").1 = false) := by
  refine ⟨?_, ?_, by decide, by decide, by decide⟩
  · intro h1
    cases hidx : mapGet idx p with
    | none => simp [remainingCount, hidx] at h1
    | some fh =>
      cases hfh : mapGet fh (generateHash r l m) with
      | none => simp [remainingCount, hidx, hfh] at h1
      | some c =>
        have hrc : remainingCount idx p (generateHash r l m) = c := by
          simp [remainingCount, hidx, hfh]
        rw [hrc] at h1 ⊢
        have hc : 0 < c := h1
        by_cases hc1 : c = 1
        · subst hc1
          have hres : isInBaselineIdx idx p r l m
              = (true, mapSet idx p (mapDelete fh (generateHash r l m))) := by
            simp [isInBaselineIdx, hidx, hfh]
          have hget : mapGet (mapSet idx p (mapDelete fh (generateHash r l m))) p
              = some (mapDelete fh (generateHash r l m)) := by
            rw [mapGet_mapSet, if_pos rfl]
          refine ⟨by rw [hres], ?_, ?_⟩
          · rw [hres]
            simp [remainingCount, hget,
              mapGet_mapDelete fh (generateHash r l m) (generateHash r l m)
                (hnd fh hidx)]
          · intro _
            rw [hres]
            simp [hashPresent, hget,
              mapGet_mapDelete fh (generateHash r l m) (generateHash r l m)
                (hnd fh hidx)]
        · have hres : isInBaselineIdx idx p r l m
              = (true, mapSet idx p (mapSet fh (generateHash r l m) (c - 1))) := by
            simp [isInBaselineIdx, hidx, hfh, hc, hc1]
          have hget : mapGet (mapSet idx p (mapSet fh (generateHash r l m) (c - 1))) p
              = some (mapSet fh (generateHash r l m) (c - 1)) := by
            rw [mapGet_mapSet, if_pos rfl]
          refine ⟨by rw [hres], ?_, fun hh => absurd hh hc1⟩
          rw [hres]
          simp [remainingCount, hget, mapGet_mapSet]
  · intro h0
    cases hidx : mapGet idx p with
    | none => simp [isInBaselineIdx, hidx]
    | some fh =>
      cases hfh : mapGet fh (generateHash r l m) with
      | none => simp [isInBaselineIdx, hidx, hfh]
      | some c =>
        have : c = 0 := by simpa [remainingCount, hidx, hfh] using h0
        subst this
        simp [isInBaselineIdx, hidx, hfh]

theorem isInBaseline_consumes_multiplicity_witness :
    1 ≤ remainingCount (buildIndex [("f", [⟨"r", 5, 1, "m"⟩])]) "f"
        (generateHash "r" 5 "m")
    ∧ (isInBaselineIdx (buildIndex [("f", [⟨"r", 5, 1, "m"⟩])]) "f" "r" 5 "m").1
        = true :=
  ⟨by decide,
   ((isInBaseline_consumes_multiplicity
      (buildIndex [("f", [⟨"r", 5, 1, "m"⟩])]) "f" "r" 5 "m"
      (fun fh h => by cases h; decide)).1 (by decide)).1⟩

/-- C3: `save` answers false and leaves the disk untouched exactly when the
document is empty and the override flag is unset; in every other case it
answers true and persists the document in the active storage mode (and the
function is total, so no exception is ever raised). -/
theorem save_rejects_empty_without_override (disk : Disk) (e : Engine)
    (data : Doc) (allowEmpty : Bool) :
    ((save disk e data allowEmpty).1 = false ↔ data = [] ∧ allowEmpty = false)
    ∧ (data = [] ∧ allowEmpty = false → (save disk e data allowEmpty).2 = disk)
    ∧ ((save disk e data allowEmpty).1 = true → e.splitByRule = false →
        (save disk e data allowEmpty).2.singleFile
            = some (docToJson (sortBaseline data))
        ∧ (save disk e data allowEmpty).2.splitDir = disk.splitDir)
    ∧ ((save disk e data allowEmpty).1 = true → e.splitByRule = true →
        (save disk e data allowEmpty).2.splitDir
            = some (saveSplitBaseline ((disk.splitDir).getD []) data)
        ∧ (save disk e data allowEmpty).2.singleFile = disk.singleFile) := by
  by_cases hcond : (data.length = 0 && !allowEmpty) = true
  · have hde : data = [] ∧ allowEmpty = false := by
      rcases data with _ | ⟨p, d⟩ <;> rcases allowEmpty <;> simp_all
    obtain ⟨h1, h2⟩ := hde
    subst h1
    subst h2
    refine ⟨⟨fun _ => ⟨rfl, rfl⟩, fun _ => rfl⟩, fun _ => rfl, ?_, ?_⟩
    · intro ht _
      cases ht
    · intro ht _
      cases ht
  · have hcf : (data.length = 0 && !allowEmpty) = false :=
      Bool.eq_false_iff.mpr hcond
    have hne : ¬(data = [] ∧ allowEmpty = false) := by
      rintro ⟨h1, h2⟩
      subst h1
      subst h2
      exact hcond rfl
    rcases Bool.eq_false_or_eq_true e.splitByRule with hsp | hsp
    · have hs : save disk e data allowEmpty
          = (true,
             { disk with
                splitDir :=
                  some (saveSplitBaseline ((disk.splitDir).getD []) data) }) := by
        unfold save
        rw [hcf, hsp]
        rfl
      refine ⟨⟨fun hf => ?_, fun hh => absurd hh hne⟩, fun hh => absurd hh hne,
        ?_, ?_⟩
      · rw [hs] at hf
        cases hf
      · intro _ hsp2
        rw [hsp] at hsp2
        cases hsp2
      · intro _ _
        exact ⟨by rw [hs], by rw [hs]⟩
    · have hs : save disk e data allowEmpty
          = (true, saveSingleBaseline disk data) := by
        unfold save
        rw [hcf, hsp]
        rfl
      refine ⟨⟨fun hf => ?_, fun hh => absurd hh hne⟩, fun hh => absurd hh hne,
        ?_, ?_⟩
      · rw [hs] at hf
        cases hf
      · intro _ _
        exact ⟨by rw [hs]; rfl, by rw [hs]; rfl⟩
      · intro _ hsp2
        rw [hsp] at hsp2
        cases hsp2

theorem save_rejects_empty_without_override_witness :
    (save emptyDisk (newEngine false) [] false).1 = false
    ∧ (save emptyDisk (newEngine false) [] false).2 = emptyDisk
    ∧ (save emptyDisk (newEngine false)
        [("f", [⟨"r", 1, 1, "m"⟩])] false).1 = true
    ∧ (save emptyDisk (newEngine false)
        [("f", [⟨"r", 1, 1, "m"⟩])] false).2.singleFile
      = some (docToJson (sortBaseline [("f", [⟨"r", 1, 1, "m"⟩])])) :=
  ⟨(save_rejects_empty_without_override emptyDisk (newEngine false) [] false).1.mpr
      ⟨rfl, rfl⟩,
   (save_rejects_empty_without_override emptyDisk (newEngine false) [] false).2.1
      ⟨rfl, rfl⟩,
   by decide,
   ((save_rejects_empty_without_override emptyDisk (newEngine false)
      [("f", [⟨"r", 1, 1, "m"⟩])] false).2.2.1 (by decide) rfl).1⟩

/-- C9: on a loaded engine `load` returns the cached document and changes
nothing; `reset` clears document, index and the loaded flag; and a `load`
after `reset` decodes the disk again (its result is the disk decode, not the
old cache) and rebuilds the index. -/
theorem load_idempotent_and_reset_clears (disk : Disk) (e : Engine)
    (h : e.loaded = true) :
    load disk e = (e.data, e)
    ∧ (reset e).loaded = false
    ∧ (reset e).data = none
    ∧ (reset e).index = none
    ∧ (load disk (reset e)).1 = some (loadDocFromDisk disk e.splitByRule)
    ∧ (load disk (reset e)).2.data = some (loadDocFromDisk disk e.splitByRule)
    ∧ (load disk (reset e)).2.index
        = some (buildIndex (loadDocFromDisk disk e.splitByRule))
    ∧ (load disk (reset e)).2.loaded = true := by
  refine ⟨by simp [load, h], rfl, rfl, rfl, ?_, ?_, ?_, ?_⟩ <;> simp [load, reset]

theorem load_idempotent_and_reset_clears_witness :
    ({ splitByRule := false, data := some [("f", [⟨"r", 1, 1, "m"⟩])],
       index := some [], loaded := true } : Engine).loaded = true
    ∧ load emptyDisk
        { splitByRule := false, data := some [("f", [⟨"r", 1, 1, "m"⟩])],
          index := some [], loaded := true }
      = (some [("f", [⟨"r", 1, 1, "m"⟩])],
         { splitByRule := false, data := some [("f", [⟨"r", 1, 1, "m"⟩])],
           index := some [], loaded := true }) :=
  ⟨rfl,
   (load_idempotent_and_reset_clears emptyDisk
     { splitByRule := false, data := some [("f", [⟨"r", 1, 1, "m"⟩])],
       index := some [], loaded := true } rfl).1⟩

/-- C4 counterexample: the validator keeps an entry whose rule identifier is
the empty string (the code checks only that the field is a string), so the
claim's "non-empty string rule identifier" condition does not hold of the
code. -/
theorem validate_keeps_empty_string_ruleId :
    isValidError (JsonVal.obj [("ruleId", JsonVal.str ""), ("line", JsonVal.num 1)])
      = true
    ∧ validateBaselineData
        (JsonVal.obj
          [("f", JsonVal.arr
            [JsonVal.obj [("ruleId", JsonVal.str ""), ("line", JsonVal.num 1)]])])
      = [("f", [JsonVal.obj [("ruleId", JsonVal.str ""), ("line", JsonVal.num 1)]])] :=
  ⟨rfl, rfl⟩

theorem validateStep_acc (acc : List (String × List JsonVal))
    (p : String × JsonVal) :
    validateStep acc p = acc ++ validateStep [] p := by
  obtain ⟨fp, v⟩ := p
  cases v <;> simp [validateStep]
  split <;> simp

theorem validate_foldl_acc (entries : List (String × JsonVal))
    (acc : List (String × List JsonVal)) :
    entries.foldl validateStep acc = acc ++ entries.foldl validateStep [] := by
  induction entries generalizing acc with
  | nil => simp
  | cons p entries ih =>
    rw [List.foldl_cons, List.foldl_cons, ih (validateStep acc p),
      ih (validateStep [] p), validateStep_acc acc p, List.append_assoc]

theorem isValidError_iff (j : JsonVal) : isValidError j = true ↔ keptEntrySpec j := by
  cases j with
  | null => simp [isValidError, keptEntrySpec]
  | bool b => simp [isValidError, keptEntrySpec, jsTypeofIsObject]
  | num n => simp [isValidError, keptEntrySpec, jsTypeofIsObject]
  | str s => simp [isValidError, keptEntrySpec, jsTypeofIsObject]
  | arr xs => simp [isValidError, keptEntrySpec, jsTypeofIsObject, getField]
  | obj fields =>
    simp only [isValidError, keptEntrySpec, jsTypeofIsObject, Bool.and_eq_true]
    constructor
    · rintro ⟨h1, h2⟩
      refine ⟨by trivial, fun hh => JsonVal.noConfusion hh, ?_, ?_⟩
      · revert h1
        cases hr : getField (JsonVal.obj fields) "ruleId" with
        | none => simp
        | some v => cases v <;> simp
      · revert h2
        cases hl : getField (JsonVal.obj fields) "line" with
        | none => simp
        | some v => cases v <;> simp
    · rintro ⟨-, -, ⟨s, hs⟩, ⟨n, hn⟩⟩
      exact ⟨by rw [hs], by rw [hn]⟩

/-- C4 (as amended): during load an entry is kept iff it is a non-null
object-typed value whose rule identifier field is a string (the empty string
included) and whose line field is a number; each file entry is processed
independently, so valid siblings of dropped entries are kept, and a file
keeps exactly its entries passing the filter. -/
theorem validate_keeps_iff_string_ruleId_and_numeric_line :
    (∀ j : JsonVal, isValidError j = true ↔ keptEntrySpec j)
    ∧ (∀ (fp : String) (v : JsonVal) (rest : List (String × JsonVal)),
        validateBaselineData (JsonVal.obj ((fp, v) :: rest))
          = (match v with
             | JsonVal.arr errors =>
                 if 0 < (errors.filter isValidError).length
                 then [(fp, errors.filter isValidError)]
                 else []
             | _ => []) ++ validateBaselineData (JsonVal.obj rest)) := by
  refine ⟨isValidError_iff, ?_⟩
  intro fp v rest
  show List.foldl validateStep (validateStep [] (fp, v)) rest = _
  rw [validate_foldl_acc rest (validateStep [] (fp, v))]
  cases v <;> simp [validateStep, validateBaselineData]

/-! Helper lemmas for `prune`. -/

theorem count_filter_eq {α : Type} [DecidableEq α] (p : α → Bool) (es : List α)
    (x : α) :
    (es.filter p).count x = if p x = true then es.count x else 0 := by
  by_cases h : p x = true
  · rw [if_pos h, List.count_filter h]
  · rw [if_neg h, List.count_eq_zero]
    intro hx
    exact h (List.of_mem_filter hx)

theorem length_filter_partition {α : Type} (p : α → Bool) (es : List α) :
    (es.filter p).length + (es.filter (fun e => !(p e))).length = es.length := by
  induction es with
  | nil => rfl
  | cons e es ih =>
    by_cases h : p e = true <;> simp [List.filter_cons, h] <;> omega

theorem contains_map_hash_iff (es : List Finding) (h : String) :
    ((es.map findingHash).contains h = true) ↔ ∃ e ∈ es, findingHash e = h := by
  rw [List.contains_iff_exists_mem_beq]
  constructor
  · rintro ⟨a, ha, hb⟩
    rw [List.mem_map] at ha
    obtain ⟨e, he, rfl⟩ := ha
    exact ⟨e, he, (beq_iff_eq.mp hb).symm⟩
  · rintro ⟨e, he, hh⟩
    exact ⟨findingHash e, List.mem_map_of_mem _ he, beq_iff_eq.mpr hh.symm⟩

theorem currentHasHash_iff (C : Doc) (f h : String) :
    currentHasHash C f h = true
      ↔ ∃ es, mapGet C f = some es ∧ ∃ e ∈ es, findingHash e = h := by
  unfold currentHasHash
  cases hget : mapGet C f with
  | none => simp
  | some es => simp [List.any_eq_true]

theorem pruneStep_acc (ci : List (String × List String)) (acc : PruneResult)
    (p : String × List Finding) :
    pruneStep ci acc p
      = { data := acc.data ++ (pruneStep ci ⟨[], 0, 0⟩ p).data,
          removedCount :=
            acc.removedCount + (pruneStep ci ⟨[], 0, 0⟩ p).removedCount,
          keptCount := acc.keptCount + (pruneStep ci ⟨[], 0, 0⟩ p).keptCount } := by
  obtain ⟨fp, es⟩ := p
  cases hc : mapGet ci fp with
  | none => cases acc; simp [pruneStep, hc]
  | some hashes =>
    cases acc
    simp only [pruneStep, hc]
    split <;> simp

theorem pruneFold_acc (ci : List (String × List String)) (B : Doc)
    (acc : PruneResult) :
    B.foldl (pruneStep ci) acc
      = { data := acc.data ++ (B.foldl (pruneStep ci) ⟨[], 0, 0⟩).data,
          removedCount :=
            acc.removedCount + (B.foldl (pruneStep ci) ⟨[], 0, 0⟩).removedCount,
          keptCount :=
            acc.keptCount + (B.foldl (pruneStep ci) ⟨[], 0, 0⟩).keptCount } := by
  induction B generalizing acc with
  | nil => cases acc; simp
  | cons p B ih =>
    rw [List.foldl_cons, List.foldl_cons, ih (pruneStep ci acc p),
      ih (pruneStep ci ⟨[], 0, 0⟩ p), pruneStep_acc ci acc p]
    simp [List.append_assoc, Nat.add_assoc]

theorem pruneStep_init_data_mapGet_ne (ci : List (String × List String))
    (g : String) (es : List Finding) (f : String) (h : g ≠ f) :
    mapGet (pruneStep ci ⟨[], 0, 0⟩ (g, es)).data f = none := by
  cases hc : mapGet ci g with
  | none => simp [pruneStep, hc, mapGet]
  | some hashes =>
    simp only [pruneStep, hc]
    split
    · rw [List.nil_append, mapGet_cons, if_neg h]
      rfl
    · rfl

theorem pruneFold_data_mapGet_none (ci : List (String × List String)) (B : Doc)
    (f : String) (hf : mapGet B f = none) :
    mapGet (B.foldl (pruneStep ci) ⟨[], 0, 0⟩).data f = none := by
  induction B with
  | nil => rfl
  | cons p B ih =>
    obtain ⟨g, es⟩ := p
    rw [mapGet_cons] at hf
    by_cases hg : g = f
    · rw [if_pos hg] at hf
      cases hf
    · rw [if_neg hg] at hf
      rw [List.foldl_cons, pruneFold_acc]
      have h1 := pruneStep_init_data_mapGet_ne ci g es f hg
      exact (mapGet_append_right _ h1).trans (ih hf)

theorem pruneFold_count (C B : Doc) (hnd : (B.map Prod.fst).Nodup) (f : String)
    (x : Finding) :
    docCount
        (B.foldl (pruneStep (C.map fun p => (p.1, p.2.map findingHash)))
          ⟨[], 0, 0⟩).data f x
      = if currentHasHash C f (findingHash x) = true then docCount B f x
        else 0 := by
  induction B with
  | nil => simp [docCount, mapGet]
  | cons p B ih =>
    obtain ⟨g, es⟩ := p
    simp only [List.map_cons, List.nodup_cons] at hnd
    rw [List.foldl_cons, pruneFold_acc]
    by_cases hg : g = f
    · subst hg
      have hB : mapGet B g = none := (mapGet_eq_none_iff B g).mpr hnd.1
      have hrest := pruneFold_data_mapGet_none
        (C.map fun p => (p.1, p.2.map findingHash)) B g hB
      have hmv := mapGet_mapValues C (fun es => es.map findingHash) g
      cases hc : mapGet (C.map fun p => (p.1, p.2.map findingHash)) g with
      | none =>
        have hCg : mapGet C g = none := by
          rw [hc] at hmv
          exact Option.map_eq_none'.mp hmv.symm
        have hch : currentHasHash C g (findingHash x) = false := by
          simp [currentHasHash, hCg]
        rw [hch]
        simp only [pruneStep, hc, Bool.false_eq_true, if_false]
        simp only [docCount, List.nil_append, hrest, Option.getD_none,
          List.count_nil]
      | some hashes =>
        rw [hc] at hmv
        obtain ⟨es', hCg, hes'⟩ := Option.map_eq_some'.mp hmv.symm
        have hdB : docCount ((g, es) :: B) g x = es.count x := by
          simp [docCount, mapGet_cons]
        rw [hdB]
        have hch : currentHasHash C g (findingHash x)
            = hashes.contains (findingHash x) := by
          by_cases hcont : hashes.contains (findingHash x) = true
          · rw [hcont]
            refine (currentHasHash_iff C g (findingHash x)).mpr ⟨es', hCg, ?_⟩
            rw [← hes'] at hcont
            exact (contains_map_hash_iff es' (findingHash x)).mp hcont
          · rw [Bool.eq_false_iff.mpr hcont, Bool.eq_false_iff]
            intro hch
            obtain ⟨es'', hget'', he''⟩ :=
              (currentHasHash_iff C g (findingHash x)).mp hch
            rw [hCg] at hget''
            cases hget''
            rw [← hes'] at hcont
            exact hcont ((contains_map_hash_iff es' (findingHash x)).mpr he'')
        rw [hch]
        have hkc : docCount
            ((pruneStep (C.map fun p => (p.1, p.2.map findingHash)) ⟨[], 0, 0⟩
                (g, es)).data
              ++ (B.foldl
                    (pruneStep (C.map fun p => (p.1, p.2.map findingHash)))
                    ⟨[], 0, 0⟩).data) g x
            = (es.filter (fun e => hashes.contains (findingHash e))).count x := by
          simp only [pruneStep, hc]
          split
          · rw [List.nil_append]
            have hgg : mapGet
                [(g, es.filter (fun e => hashes.contains (findingHash e)))] g
                = some (es.filter (fun e => hashes.contains (findingHash e))) := by
              rw [mapGet_cons, if_pos rfl]
            rw [docCount, mapGet_append_left _ hgg]
            rfl
          · rename_i hlen
            rw [List.nil_append, docCount, hrest]
            have : (es.filter (fun e => hashes.contains (findingHash e))) = [] := by
              rcases hflt : es.filter (fun e => hashes.contains (findingHash e)) with
                _ | ⟨y, ys⟩
              · rfl
              · rw [hflt] at hlen
                simp at hlen
            rw [this]
            rfl
        rw [hkc, count_filter_eq]
    · have h1 := pruneStep_init_data_mapGet_ne
        (C.map fun p => (p.1, p.2.map findingHash)) g es f hg
      have hdB : docCount ((g, es) :: B) f x = docCount B f x := by
        simp [docCount, mapGet_cons, hg]
      rw [hdB, docCount, mapGet_append_right _ h1, ← docCount, ih hnd.2]

theorem pruneFold_totals (ci : List (String × List String)) (B : Doc) :
    (B.foldl (pruneStep ci) ⟨[], 0, 0⟩).keptCount
      + (B.foldl (pruneStep ci) ⟨[], 0, 0⟩).removedCount = totalFindings B := by
  induction B with
  | nil => rfl
  | cons p B ih =>
    obtain ⟨g, es⟩ := p
    rw [List.foldl_cons, pruneFold_acc]
    have hstep : (pruneStep ci ⟨[], 0, 0⟩ (g, es)).keptCount
        + (pruneStep ci ⟨[], 0, 0⟩ (g, es)).removedCount = es.length := by
      cases hc : mapGet ci g with
      | none => simp [pruneStep, hc]
      | some hashes =>
        simp only [pruneStep, hc]
        have := length_filter_partition
          (fun e => hashes.contains (findingHash e)) es
        omega
    have htot : totalFindings ((g, es) :: B) = es.length + totalFindings B := by
      simp [totalFindings]
    rw [htot]
    simp only
    omega

theorem pruneFold_data_absent (C B : Doc) (hnd : (B.map Prod.fst).Nodup)
    (f : String) (hCf : mapGet C f = none) :
    mapGet
        (B.foldl (pruneStep (C.map fun p => (p.1, p.2.map findingHash)))
          ⟨[], 0, 0⟩).data f = none := by
  induction B with
  | nil => rfl
  | cons p B ih =>
    obtain ⟨g, es⟩ := p
    simp only [List.map_cons, List.nodup_cons] at hnd
    rw [List.foldl_cons, pruneFold_acc]
    by_cases hg : g = f
    · subst hg
      have hc : mapGet (C.map fun p => (p.1, p.2.map findingHash)) g = none := by
        rw [mapGet_mapValues, hCf]
        rfl
      have hB : mapGet B g = none := (mapGet_eq_none_iff B g).mpr hnd.1
      simp only [pruneStep, hc, List.nil_append]
      exact pruneFold_data_mapGet_none _ B g hB
    · have h1 := pruneStep_init_data_mapGet_ne
        (C.map fun p => (p.1, p.2.map findingHash)) g es f hg
      rw [mapGet_append_right _ h1]
      exact ih hnd.2

theorem pruneFold_data_ne_empty (ci : List (String × List String)) (B : Doc)
    (f : String) :
    mapGet (B.foldl (pruneStep ci) ⟨[], 0, 0⟩).data f ≠ some [] := by
  induction B with
  | nil => simp [mapGet]
  | cons p B ih =>
    obtain ⟨g, es⟩ := p
    rw [List.foldl_cons, pruneFold_acc]
    cases hc : mapGet ci g with
    | none =>
      simp only [pruneStep, hc, List.nil_append]
      exact ih
    | some hashes =>
      simp only [pruneStep, hc]
      split
      · rename_i hlen
        by_cases hg : g = f
        · subst hg
          have hgg : mapGet
              [(g, es.filter (fun e => hashes.contains (findingHash e)))] g
              = some (es.filter (fun e => hashes.contains (findingHash e))) := by
            rw [mapGet_cons, if_pos rfl]
          rw [List.nil_append, mapGet_append_left _ hgg]
          intro hcontra
          rw [Option.some_inj] at hcontra
          rw [hcontra] at hlen
          simp at hlen
        · rw [List.nil_append,
            mapGet_append_right _ (by rw [mapGet_cons, if_neg hg]; rfl)]
          exact ih
      · rw [List.nil_append]
        exact ih

/-- C6: `prune` keeps exactly the baseline entries whose fingerprint occurs
among the current findings for the same file (stated by multiplicity); the
kept and removed counters partition the baseline's entries; a baseline file
absent from the current findings is dropped from the result; and no file is
ever kept with an empty entry list. -/
theorem prune_retains_exactly_current_fingerprints (B C : Doc)
    (hnd : (B.map Prod.fst).Nodup) :
    (∀ (f : String) (x : Finding),
      docCount (prune B C).data f x
        = if currentHasHash C f (findingHash x) = true then docCount B f x
          else 0)
    ∧ (prune B C).keptCount + (prune B C).removedCount = totalFindings B
    ∧ (∀ f : String, mapGet C f = none → mapGet (prune B C).data f = none)
    ∧ (∀ f : String, mapGet (prune B C).data f ≠ some []) :=
  ⟨fun f x => pruneFold_count C B hnd f x,
   pruneFold_totals _ B,
   fun f hCf => pruneFold_data_absent C B hnd f hCf,
   fun f => pruneFold_data_ne_empty _ B f⟩

theorem prune_retains_exactly_current_fingerprints_witness :
    (([("f", [⟨"r", 1, 1, "a"⟩, ⟨"r", 2, 1, "b"⟩, ⟨"r", 3, 1, "c"⟩])] : Doc).map
        Prod.fst).Nodup
    ∧ (prune [("f", [⟨"r", 1, 1, "a"⟩, ⟨"r", 2, 1, "b"⟩, ⟨"r", 3, 1, "c"⟩])]
          [("f", [⟨"r", 1, 1, "a"⟩, ⟨"r", 2, 1, "b"⟩])]).keptCount
        + (prune [("f", [⟨"r", 1, 1, "a"⟩, ⟨"r", 2, 1, "b"⟩, ⟨"r", 3, 1, "c"⟩])]
            [("f", [⟨"r", 1, 1, "a"⟩, ⟨"r", 2, 1, "b"⟩])]).removedCount
      = totalFindings
          [("f", [⟨"r", 1, 1, "a"⟩, ⟨"r", 2, 1, "b"⟩, ⟨"r", 3, 1, "c"⟩])] :=
  ⟨by decide,
   (prune_retains_exactly_current_fingerprints
      [("f", [⟨"r", 1, 1, "a"⟩, ⟨"r", 2, 1, "b"⟩, ⟨"r", 3, 1, "c"⟩])]
      [("f", [⟨"r", 1, 1, "a"⟩, ⟨"r", 2, 1, "b"⟩])] (by decide)).2.1⟩

/-! Round trip of the JSON encoding of documents. -/

theorem isValidError_findingToJson (x : Finding) :
    isValidError (findingToJson x) = true := rfl

theorem jsonToFinding_findingToJson (x : Finding) :
    jsonToFinding (findingToJson x) = x := rfl

theorem validate_docToJson (E : Doc) :
    validateBaselineData (docToJson E)
      = (E.filter (fun p => !p.2.isEmpty)).map
          (fun p => (p.1, p.2.map findingToJson)) := by
  induction E with
  | nil => rfl
  | cons p E ih =>
    obtain ⟨fp, es⟩ := p
    show List.foldl validateStep
        (validateStep [] (fp, JsonVal.arr (es.map findingToJson))) _ = _
    rw [validate_foldl_acc]
    have hflt : (es.map findingToJson).filter isValidError = es.map findingToJson :=
      List.filter_eq_self.mpr (by
        intro a ha
        rw [List.mem_map] at ha
        obtain ⟨e, _, rfl⟩ := ha
        exact isValidError_findingToJson e)
    cases es with
    | nil => simpa [validateStep, hflt] using ih
    | cons e es =>
      simp only [validateStep, hflt]
      rw [if_pos (by simp)]
      simp only [List.filter_cons, List.isEmpty_cons, Bool.not_false, if_pos rfl]
      rw [List.map_cons]
      show [(fp, (e :: es).map findingToJson)] ++ _ = _
      rw [List.singleton_append]
      exact congrArg _ ih

theorem decode_validate_docToJson (E : Doc) :
    decodeValidated (validateBaselineData (docToJson E))
      = E.filter (fun p => !p.2.isEmpty) := by
  rw [validate_docToJson, decodeValidated, List.map_map]
  have : ∀ p : String × List Finding,
      ((fun p => (p.1, p.2.map jsonToFinding)) ∘
        (fun p : String × List Finding => (p.1, p.2.map findingToJson))) p = p := by
    intro ⟨fp, es⟩
    simp only [Function.comp_apply, List.map_map]
    rw [show es.map (jsonToFinding ∘ findingToJson) = es.map id from
      List.map_congr_left (fun e _ => jsonToFinding_findingToJson e)]
    simp
  rw [List.map_congr_left (fun p _ => this p)]
  simp

/-! Multiset preservation by sorting and by dropping empty file entries. -/

theorem docCount_sortBaseline (E : Doc) (f : String) (x : Finding) :
    docCount (sortBaseline E) f x = docCount E f x := by
  unfold sortBaseline docCount
  rw [mapGet_keysMap]
  by_cases hf : f ∈ sortBy stringLe (E.map (fun p => p.1))
  · rw [if_pos hf]
    exact List.Perm.count_eq
      (sortBy_perm findingLe ((mapGet E f).getD [])) x
  · rw [if_neg hf]
    have hf2 : f ∉ E.map Prod.fst := by
      intro hmem
      exact hf (((sortBy_perm stringLe (E.map (fun p => p.1))).mem_iff).mpr hmem)
    rw [(mapGet_eq_none_iff E f).mpr hf2]

theorem keys_sortBaseline (E : Doc) :
    (sortBaseline E).map Prod.fst = sortBy stringLe (E.map (fun p => p.1)) := by
  unfold sortBaseline
  rw [List.map_map]
  show List.map (fun k => k) _ = _
  simp

theorem nodup_keys_sortBaseline (E : Doc) (hnd : (E.map Prod.fst).Nodup) :
    ((sortBaseline E).map Prod.fst).Nodup := by
  rw [keys_sortBaseline]
  exact ((sortBy_perm stringLe (E.map (fun p => p.1))).nodup_iff).mpr hnd

theorem mapGet_filter_none {α : Type} (q : String × α → Bool)
    (m : List (String × α)) (f : String) (h : mapGet m f = none) :
    mapGet (m.filter q) f = none := by
  rw [mapGet_eq_none_iff] at h ⊢
  intro hmem
  rw [List.mem_map] at hmem
  obtain ⟨p, hp, rfl⟩ := hmem
  exact h (List.mem_map_of_mem _ (List.mem_of_mem_filter hp))

theorem docCount_filter_nonempty (E : Doc) (hnd : (E.map Prod.fst).Nodup)
    (f : String) (x : Finding) :
    docCount (E.filter (fun p => !p.2.isEmpty)) f x = docCount E f x := by
  induction E with
  | nil => rfl
  | cons p E ih =>
    obtain ⟨g, es⟩ := p
    simp only [List.map_cons, List.nodup_cons] at hnd
    by_cases hg : g = f
    · subst hg
      cases es with
      | nil =>
        rw [List.filter_cons, if_neg (by simp)]
        have hE : mapGet E g = none := (mapGet_eq_none_iff E g).mpr hnd.1
        unfold docCount
        rw [mapGet_filter_none _ E g hE, mapGet_cons, if_pos rfl]
        rfl
      | cons e es =>
        rw [List.filter_cons, if_pos (by simp)]
        unfold docCount
        rw [mapGet_cons, if_pos rfl, mapGet_cons, if_pos rfl]
    · rw [List.filter_cons]
      have hrec : docCount (E.filter (fun p => !p.2.isEmpty)) f x
          = docCount E f x := ih hnd.2
      have hcons : docCount ((g, es) :: E) f x = docCount E f x := by
        unfold docCount
        rw [mapGet_cons, if_neg hg]
      split
      · rw [hcons]
        show docCount ((g, es) :: E.filter (fun p => !p.2.isEmpty)) f x = _
        unfold docCount
        rw [mapGet_cons, if_neg hg]
        exact hrec
      · rw [hcons]
        exact hrec

/-! Multiset accounting of the split-mode merge. -/

theorem docCount_mergeEntry (m : Doc) (g : String) (es : List Finding)
    (f : String) (x : Finding) :
    docCount (mergeEntry m (g, es)) f x
      = docCount m f x + (if g = f then es.count x else 0) := by
  unfold mergeEntry
  cases hm : mapGet m g with
  | none =>
    by_cases hg : g = f
    · subst hg
      unfold docCount
      rw [mapGet_append_right _ hm, mapGet_cons, if_pos rfl, hm]
      simp
    · unfold docCount
      cases hmf : mapGet m f with
      | none =>
        rw [mapGet_append_right _ hmf, mapGet_cons, if_neg hg]
        simp [mapGet, hmf, hg]
      | some v =>
        rw [mapGet_append_left _ hmf]
        simp [hmf, hg]
  | some existing =>
    unfold docCount
    rw [mapGet_mapSet]
    by_cases hf : f = g
    · subst hf
      rw [if_pos rfl, if_pos rfl, hm]
      simp [List.count_append]
    · rw [if_neg hf, if_neg (fun hh => hf hh.symm)]
      simp

theorem docCount_mergeFold (v : Doc) (f : String) (x : Finding)
    (hnd : (v.map Prod.fst).Nodup) :
    ∀ m : Doc, docCount (v.foldl mergeEntry m) f x
      = docCount m f x + docCount v f x := by
  induction v with
  | nil =>
    intro m
    simp [docCount, mapGet]
  | cons q v ih =>
    intro m
    obtain ⟨g, es⟩ := q
    simp only [List.map_cons, List.nodup_cons] at hnd
    rw [List.foldl_cons, ih hnd.2 (mergeEntry m (g, es)), docCount_mergeEntry]
    have hv : docCount ((g, es) :: v) f x
        = (if g = f then es.count x else 0) + docCount v f x := by
      by_cases hg : g = f
      · subst hg
        unfold docCount
        rw [mapGet_cons, if_pos rfl, (mapGet_eq_none_iff v g).mpr hnd.1]
        simp
      · unfold docCount
        rw [mapGet_cons, if_neg hg]
        simp [hg]
    rw [hv]
    omega

theorem docCount_splitLoadFold (files : List (String × JsonVal)) (f : String)
    (x : Finding)
    (h : ∀ p ∈ files,
      ((decodeValidated (validateBaselineData p.2)).map Prod.fst).Nodup) :
    ∀ m : Doc,
      docCount
          (files.foldl
            (fun merged p =>
              (decodeValidated (validateBaselineData p.2)).foldl mergeEntry merged)
            m) f x
        = docCount m f x
          + (files.map
              (fun p => docCount (decodeValidated (validateBaselineData p.2)) f x)).sum := by
  induction files with
  | nil =>
    intro m
    simp
  | cons p files ih =>
    intro m
    rw [List.foldl_cons,
      ih (fun q hq => h q (List.mem_cons_of_mem _ hq)) _,
      docCount_mergeFold _ f x (h p (List.mem_cons_self _ _)) m]
    simp only [List.map_cons, List.sum_cons]
    omega

/-! Multiset accounting of the split-mode grouping. -/

theorem docCount_mapSet_push (rd : Doc) (k : String) (e : Finding) (f : String)
    (x : Finding) :
    docCount (mapSet rd k ((mapGet rd k).getD [] ++ [e])) f x
      = docCount rd f x + (if k = f ∧ e = x then 1 else 0) := by
  unfold docCount
  rw [mapGet_mapSet]
  by_cases hf : f = k
  · subst hf
    rw [if_pos rfl]
    by_cases hx : e = x <;>
      simp [List.count_append, List.count_cons, hx]
  · rw [if_neg hf, if_neg (fun hh => hf hh.1.symm)]
    simp

theorem byRuleTotal_addToByRule (br : List (String × Doc)) (fp : String)
    (e : Finding) (f : String) (x : Finding) :
    byRuleTotal (addToByRule br fp e) f x
      = byRuleTotal br f x + (if fp = f ∧ e = x then 1 else 0) := by
  induction br with
  | nil =>
    by_cases hf : fp = f <;> by_cases hx : e = x <;>
      simp [addToByRule, byRuleTotal, docCount, mapGet, mapSet, List.count_cons,
        hf, hx]
  | cons q br ih =>
    obtain ⟨rid', rd'⟩ := q
    by_cases hr : rid' = safeRuleId e.ruleId
    · subst hr
      have hstep : addToByRule ((safeRuleId e.ruleId, rd') :: br) fp e
          = (safeRuleId e.ruleId,
             mapSet rd' fp ((mapGet rd' fp).getD [] ++ [e])) :: br := by
        dsimp only [addToByRule]
        rw [mapGet_cons, if_pos rfl]
        simp only [Option.getD_some]
        exact mapSet_cons_eq _ _ _ _
      rw [hstep]
      unfold byRuleTotal
      simp only [List.map_cons, List.sum_cons]
      rw [docCount_mapSet_push]
      unfold byRuleTotal at ih
      omega
    · have hstep : addToByRule ((rid', rd') :: br) fp e
          = (rid', rd') :: addToByRule br fp e := by
        dsimp only [addToByRule]
        rw [mapGet_cons, if_neg hr]
        exact mapSet_cons_ne _ _ _ hr
      rw [hstep]
      unfold byRuleTotal at ih ⊢
      simp only [List.map_cons, List.sum_cons]
      omega

theorem byRuleTotal_esFold (es : List Finding) (fp : String) (f : String)
    (x : Finding) :
    ∀ br, byRuleTotal (es.foldl (fun b e => addToByRule b fp e) br) f x
      = byRuleTotal br f x + (if fp = f then es.count x else 0) := by
  induction es with
  | nil =>
    intro br
    simp
  | cons e es ih =>
    intro br
    rw [List.foldl_cons, ih, byRuleTotal_addToByRule]
    by_cases hf : fp = f
    · by_cases hx : e = x <;> simp [hf, hx, List.count_cons] <;> omega
    · simp [hf]

theorem byRuleTotal_buildByRule (D : Doc) (f : String) (x : Finding) :
    byRuleTotal (buildByRule D) f x = entriesCountDoc D f x := by
  unfold buildByRule
  suffices h : ∀ br,
      byRuleTotal
          (D.foldl (fun br p => p.2.foldl (fun b e => addToByRule b p.1 e) br) br)
          f x
        = byRuleTotal br f x + entriesCountDoc D f x by
    simpa [byRuleTotal] using h []
  induction D with
  | nil =>
    intro br
    simp [entriesCountDoc]
  | cons p D ih =>
    intro br
    obtain ⟨fp, es⟩ := p
    rw [List.foldl_cons, ih, byRuleTotal_esFold]
    unfold entriesCountDoc
    simp only [List.map_cons, List.sum_cons]
    omega

theorem entriesCountDoc_eq_docCount (D : Doc) (hnd : (D.map Prod.fst).Nodup)
    (f : String) (x : Finding) :
    entriesCountDoc D f x = docCount D f x := by
  induction D with
  | nil => rfl
  | cons p D ih =>
    obtain ⟨g, es⟩ := p
    simp only [List.map_cons, List.nodup_cons] at hnd
    unfold entriesCountDoc docCount
    rw [List.map_cons, List.sum_cons, mapGet_cons]
    by_cases hg : g = f
    · subst hg
      rw [if_pos rfl, if_pos rfl]
      have h0 : docCount D g x = 0 := by
        unfold docCount
        rw [(mapGet_eq_none_iff D g).mpr hnd.1]
        rfl
      have h2 : entriesCountDoc D g x = 0 := (ih hnd.2).trans h0
      unfold entriesCountDoc at h2
      rw [h2]
      rfl
    · rw [if_neg hg, if_neg hg]
      have := ih hnd.2
      unfold entriesCountDoc docCount at this
      rw [Nat.zero_add]
      exact this

/-! Structural invariants of the split-mode grouping. -/

theorem strAppend_cancel_right {a b c : String} (h : a ++ c = b ++ c) : a = b := by
  have hd := congrArg String.data h
  rw [String.data_append, String.data_append] at hd
  exact String.ext (List.append_cancel_right hd)

theorem byRuleInv_addToByRule (br : List (String × Doc)) (fp : String)
    (e : Finding) (hinv : ByRuleInv br)
    (he : safeRuleId e.ruleId ≠ "_loader") :
    ByRuleInv (addToByRule br fp e) := by
  obtain ⟨h1, h2, h3⟩ := hinv
  refine ⟨nodup_keys_mapSet _ _ _ h1, ?_, ?_⟩
  · intro q hq
    rcases mem_mapSet hq with hq | hq
    · exact h2 q hq
    · subst hq
      apply nodup_keys_mapSet
      cases hg : mapGet br (safeRuleId e.ruleId) with
      | none => simp
      | some rd => simpa using h2 _ (mapGet_mem hg)
  · unfold addToByRule
    rw [keys_mapSet]
    split
    · exact h3
    · intro hmem
      rcases List.mem_append.mp hmem with hmem | hmem
      · exact h3 hmem
      · rw [List.mem_singleton] at hmem
        exact he hmem.symm

theorem byRuleInv_esFold (es : List Finding) (fp : String) :
    ∀ br, ByRuleInv br → (∀ e ∈ es, safeRuleId e.ruleId ≠ "_loader") →
      ByRuleInv (es.foldl (fun b e => addToByRule b fp e) br) := by
  induction es with
  | nil =>
    intro br h _
    exact h
  | cons e es ih =>
    intro br hbr hes
    rw [List.foldl_cons]
    exact ih _
      (byRuleInv_addToByRule br fp e hbr (hes e (List.mem_cons_self _ _)))
      (fun e' he' => hes e' (List.mem_cons_of_mem _ he'))

theorem byRuleInv_buildByRule (D : Doc)
    (hl : ∀ p ∈ D, ∀ e ∈ p.2, safeRuleId e.ruleId ≠ "_loader") :
    ByRuleInv (buildByRule D) := by
  unfold buildByRule
  suffices h : ∀ (l : Doc),
      (∀ p ∈ l, ∀ e ∈ p.2, safeRuleId e.ruleId ≠ "_loader") →
      ∀ br, ByRuleInv br →
        ByRuleInv
          (l.foldl (fun br p => p.2.foldl (fun b e => addToByRule b p.1 e) br) br) by
    exact h D hl [] ⟨List.nodup_nil, by simp, by simp⟩
  intro l
  induction l with
  | nil =>
    intro _ br hbr
    exact hbr
  | cons p l ih =>
    intro hpl br hbr
    rw [List.foldl_cons]
    exact ih (fun q hq => hpl q (List.mem_cons_of_mem _ hq)) _
      (byRuleInv_esFold p.2 p.1 br hbr (hpl p (List.mem_cons_self _ _)))

/-! The directory written by split-mode save. -/

theorem mapSet_of_mapGet_none {α : Type} {m : List (String × α)} {k : String}
    (v : α) (h : mapGet m k = none) : mapSet m k v = m ++ [(k, v)] := by
  induction m with
  | nil => rfl
  | cons p m ih =>
    obtain ⟨a, b⟩ := p
    rw [mapGet_cons] at h
    by_cases ha : a = k
    · rw [if_pos ha] at h
      cases h
    · rw [if_neg ha] at h
      rw [mapSet_cons_ne b v m ha, ih h, List.cons_append]

theorem writesFold (l : List (String × Doc)) :
    ∀ dir : List (String × JsonVal),
      ((l.map (fun p => p.1 ++ ".json")).Nodup) →
      (∀ p ∈ l, mapGet dir (p.1 ++ ".json") = none) →
      l.foldl
          (fun dir p => mapSet dir (p.1 ++ ".json") (docToJson (sortBaseline p.2)))
          dir
        = dir ++ l.map (fun p => (p.1 ++ ".json", docToJson (sortBaseline p.2))) := by
  induction l with
  | nil =>
    intro dir _ _
    simp
  | cons p l ih =>
    intro dir hnd hnone
    simp only [List.map_cons, List.nodup_cons] at hnd
    rw [List.foldl_cons,
      mapSet_of_mapGet_none _ (hnone p (List.mem_cons_self _ _)),
      ih _ hnd.2 ?_, List.map_cons, List.append_assoc, List.singleton_append]
    intro q hq
    have h1 : mapGet dir (q.1 ++ ".json") = none :=
      hnone q (List.mem_cons_of_mem _ hq)
    rw [mapGet_append_right _ h1, mapGet_cons,
      if_neg (fun hh => hnd.1 (by rw [hh]; exact List.mem_map_of_mem _ hq))]
    rfl

theorem strEndsWith_append (s t : String) : strEndsWith (s ++ t) t = true := by
  rw [strEndsWith, decide_eq_true_eq]
  exact ⟨s.data, (String.data_append s t).symm⟩

theorem saveSplit_on_empty (D : Doc) (hinv : ByRuleInv (buildByRule D)) :
    saveSplitBaseline [] D
      = (buildByRule D).map
          (fun p => (p.1 ++ ".json", docToJson (sortBaseline p.2)))
        ++ [("_loader.json", loaderJson (buildByRule D))] := by
  have hnodup : ((buildByRule D).map (fun p => p.1 ++ ".json")).Nodup := by
    have heq : ((buildByRule D).map (fun p => p.1 ++ ".json"))
        = ((buildByRule D).map Prod.fst).map (fun s => s ++ ".json") := by
      rw [List.map_map]
      rfl
    rw [heq]
    exact List.Nodup.map (fun a b hab => strAppend_cancel_right hab) hinv.1
  have hw := writesFold (buildByRule D) [] hnodup (fun p _ => rfl)
  dsimp only [saveSplitBaseline]
  rw [List.filter_nil, hw, List.nil_append]
  apply mapSet_of_mapGet_none
  rw [mapGet_eq_none_iff, List.map_map]
  intro hmem
  rw [List.mem_map] at hmem
  obtain ⟨p, hp, hcontra⟩ := hmem
  have hp1 : p.1 = "_loader" :=
    strAppend_cancel_right
      (hcontra.trans (show ("_loader.json" : String) = "_loader" ++ ".json" from rfl))
  exact hinv.2.2 (by rw [← hp1]; exact List.mem_map_of_mem _ hp)

theorem decoded_write_nodup (rd : Doc) (hnd : (rd.map Prod.fst).Nodup) :
    ((decodeValidated
        (validateBaselineData (docToJson (sortBaseline rd)))).map Prod.fst).Nodup := by
  rw [decode_validate_docToJson]
  exact List.Sublist.nodup (List.Sublist.map Prod.fst (List.filter_sublist _))
    (nodup_keys_sortBaseline rd hnd)

theorem decoded_write_count (rd : Doc) (hnd : (rd.map Prod.fst).Nodup)
    (f : String) (x : Finding) :
    docCount (decodeValidated (validateBaselineData (docToJson (sortBaseline rd))))
        f x
      = docCount rd f x := by
  rw [decode_validate_docToJson,
    docCount_filter_nonempty _ (nodup_keys_sortBaseline rd hnd),
    docCount_sortBaseline]

theorem loadSplit_saveSplit_count (D : Doc) (hndD : (D.map Prod.fst).Nodup)
    (hl : ∀ p ∈ D, ∀ e ∈ p.2, safeRuleId e.ruleId ≠ "_loader")
    (f : String) (x : Finding) :
    docCount (loadSplitBaseline (saveSplitBaseline [] D)) f x = docCount D f x := by
  have hinv := byRuleInv_buildByRule D hl
  rw [saveSplit_on_empty D hinv]
  dsimp only [loadSplitBaseline]
  have hfilter :
      (((buildByRule D).map
          (fun p => (p.1 ++ ".json", docToJson (sortBaseline p.2)))
        ++ [("_loader.json", loaderJson (buildByRule D))]).filter
          (fun p => strEndsWith p.1 ".json" && !(decide (p.1 = "_loader.json"))))
      = (buildByRule D).map
          (fun p => (p.1 ++ ".json", docToJson (sortBaseline p.2))) := by
    rw [List.filter_append]
    have h1 : ((buildByRule D).map
          (fun p => (p.1 ++ ".json", docToJson (sortBaseline p.2)))).filter
            (fun p => strEndsWith p.1 ".json" && !(decide (p.1 = "_loader.json")))
        = (buildByRule D).map
            (fun p => (p.1 ++ ".json", docToJson (sortBaseline p.2))) := by
      refine List.filter_eq_self.mpr ?_
      intro q hq
      rw [List.mem_map] at hq
      obtain ⟨p, hp, rfl⟩ := hq
      rw [Bool.and_eq_true]
      refine ⟨strEndsWith_append _ _, ?_⟩
      simp only [Bool.not_eq_eq_eq_not, Bool.not_true, decide_eq_false_iff_not]
      intro hcontra
      have hp1 : p.1 = "_loader" :=
        strAppend_cancel_right
          (hcontra.trans
            (show ("_loader.json" : String) = "_loader" ++ ".json" from rfl))
      exact hinv.2.2 (by rw [← hp1]; exact List.mem_map_of_mem _ hp)
    have h2 : ([("_loader.json", loaderJson (buildByRule D))]).filter
          (fun p => strEndsWith p.1 ".json" && !(decide (p.1 = "_loader.json")))
        = [] := by
      rw [List.filter_cons, if_neg (by simp)]
      rfl
    rw [h1, h2, List.append_nil]
  rw [hfilter]
  have hnodups : ∀ w ∈ (buildByRule D).map
      (fun p => (p.1 ++ ".json", docToJson (sortBaseline p.2))),
      ((decodeValidated (validateBaselineData w.2)).map Prod.fst).Nodup := by
    intro w hw
    rw [List.mem_map] at hw
    obtain ⟨p, hp, rfl⟩ := hw
    exact decoded_write_nodup p.2 (hinv.2.1 p hp)
  rw [docCount_splitLoadFold _ f x hnodups []]
  rw [List.map_map]
  have hmapeq : ((buildByRule D).map
      ((fun w : String × JsonVal =>
          docCount (decodeValidated (validateBaselineData w.2)) f x) ∘
        (fun p => (p.1 ++ ".json", docToJson (sortBaseline p.2)))))
      = (buildByRule D).map (fun p => docCount p.2 f x) := by
    refine List.map_congr_left ?_
    intro p hp
    exact decoded_write_count p.2 (hinv.2.1 p hp) f x
  rw [hmapeq]
  have hbrt := byRuleTotal_buildByRule D f x
  unfold byRuleTotal at hbrt
  rw [hbrt, entriesCountDoc_eq_docCount D hndD f x]
  simp [docCount, mapGet]

/-- C2 counterexample: a document whose only rule is named `_loader` round
trips to the empty document in split mode — the rule file `_loader.json` is
overwritten by the manifest and then excluded on load — so the claim's
universal round-trip equality fails. -/
theorem split_roundtrip_drops_loader_named_rule :
    loadSplitBaseline (saveSplitBaseline [] [("f", [⟨"_loader", 1, 1, "m"⟩])]) = []
    ∧ docCount [("f", [⟨"_loader", 1, 1, "m"⟩])] "f" ⟨"_loader", 1, 1, "m"⟩ = 1
    ∧ (load (save emptyDisk (newEngine true)
          [("f", [⟨"_loader", 1, 1, "m"⟩])] false).2 (newEngine true)).1
      = some [] :=
  ⟨by decide, by decide, by decide⟩

/-- C2 (as amended): for every non-empty document with unique file keys in
which no finding's filesystem-safe rule identifier equals `_loader`, the
sequence save-reset-load yields, in both single and split mode, a document
whose per-file finding multisets equal the original's. -/
theorem roundtrip_preserves_file_multisets (D : Doc) (hne : D ≠ [])
    (hnd : (D.map Prod.fst).Nodup)
    (hl : ∀ p ∈ D, ∀ e ∈ p.2, safeRuleId e.ruleId ≠ "_loader")
    (f : String) (x : Finding) :
    docCount ((load (save emptyDisk (newEngine false) D false).2
        (newEngine false)).1.getD []) f x = docCount D f x
    ∧ docCount ((load (save emptyDisk (newEngine true) D false).2
        (newEngine true)).1.getD []) f x = docCount D f x := by
  have hlen : (D.length = 0 && !false) = false := by
    cases D with
    | nil => exact absurd rfl hne
    | cons p D => rfl
  constructor
  · have hsave : (save emptyDisk (newEngine false) D false).2
        = { emptyDisk with singleFile := some (docToJson (sortBaseline D)) } := by
      unfold save
      rw [hlen]
      rfl
    rw [hsave]
    show docCount
        (decodeValidated (validateBaselineData (docToJson (sortBaseline D)))) f x
      = docCount D f x
    rw [decode_validate_docToJson,
      docCount_filter_nonempty _ (nodup_keys_sortBaseline D hnd),
      docCount_sortBaseline]
  · have hsave : (save emptyDisk (newEngine true) D false).2
        = { emptyDisk with splitDir := some (saveSplitBaseline [] D) } := by
      unfold save
      rw [hlen]
      rfl
    rw [hsave]
    show docCount (loadSplitBaseline (saveSplitBaseline [] D)) f x = docCount D f x
    exact loadSplit_saveSplit_count D hnd hl f x

theorem roundtrip_preserves_file_multisets_witness :
    ([("f", [⟨"r", 1, 1, "m"⟩])] : Doc) ≠ []
    ∧ (([("f", [⟨"r", 1, 1, "m"⟩])] : Doc).map Prod.fst).Nodup
    ∧ docCount ((load (save emptyDisk (newEngine true)
          [("f", [⟨"r", 1, 1, "m"⟩])] false).2 (newEngine true)).1.getD [])
        "f" ⟨"r", 1, 1, "m"⟩
      = docCount [("f", [⟨"r", 1, 1, "m"⟩])] "f" ⟨"r", 1, 1, "m"⟩ :=
  ⟨by decide, by decide,
   (roundtrip_preserves_file_multisets [("f", [⟨"r", 1, 1, "m"⟩])]
      (by decide) (by decide) (by decide) "f" ⟨"r", 1, 1, "m"⟩).2⟩
